import Mathlib

/-!
# Verification of the soundboard / paint repository

Shallow embedding of the algorithmic core of the repository: the soundboard
board list and its import/export, the audio base64 pipeline, the
internet-explorer history cap, and the paint canvas undo/redo history and
scanline flood fill.  Strings that carry binary data are modelled as lists
of character codes; JSON documents are modelled by an explicit `Json` value
type.  Browser primitives that the code calls (`btoa`, `atob`,
`JSON.stringify`/`JSON.parse`, `localStorage`) are modelled by their
standard semantics, with loads and stores turned into explicit inputs and
outputs.
-/

set_option maxHeartbeats 1000000
set_option linter.dupNamespace false

namespace Soundboard

/-! ## Base64 (browser `btoa` / `atob`, as used by the audio pipeline) -/

/-- One 6-bit group encoded to its RFC 4648 base64 alphabet character code
(`0..25 ↦ A..Z`, `26..51 ↦ a..z`, `52..61 ↦ 0..9`, `62 ↦ +`, `63 ↦ /`).
This is the alphabet the browser primitive `btoa` uses. -/
def b64Char (n : Nat) : Nat :=
  if n < 26 then 65 + n
  else if n < 52 then 97 + (n - 26)
  else if n < 62 then 48 + (n - 52)
  else if n = 62 then 43
  else 47

/-- Inverse of the base64 alphabet: character code to 6-bit value, as the
browser primitive `atob` interprets characters. -/
def b64Index (c : Nat) : Nat :=
  if 65 ≤ c ∧ c ≤ 90 then c - 65
  else if 97 ≤ c ∧ c ≤ 122 then c - 97 + 26
  else if 48 ≤ c ∧ c ≤ 57 then c - 48 + 52
  else if c = 43 then 62
  else 63

/-- Character code of `'='`, the base64 padding character. -/
def padChar : Nat := 61

/-- Model of the browser primitive `btoa`.  Strings are modelled as lists
of character codes, so the input "binary string" is the list of byte values
and the output is the base64 text as character codes.  Three bytes become
four alphabet characters; a trailing group of one or two bytes is padded
with `=`. -/
def btoa : List Nat → List Nat
  | [] => []
  | [b0] => [b64Char (b0 / 4), b64Char (b0 % 4 * 16), padChar, padChar]
  | [b0, b1] =>
      [b64Char (b0 / 4), b64Char (b0 % 4 * 16 + b1 / 16), b64Char (b1 % 16 * 4), padChar]
  | b0 :: b1 :: b2 :: rest =>
      b64Char (b0 / 4) :: b64Char (b0 % 4 * 16 + b1 / 16) ::
      b64Char (b1 % 16 * 4 + b2 / 64) :: b64Char (b2 % 64) :: btoa rest

/-- Model of the browser primitive `atob` on base64 text produced by
`btoa`: four characters decode to three bytes, with the final group
shortened according to its `=` padding. -/
def atob : List Nat → List Nat
  | c0 :: c1 :: c2 :: c3 :: rest =>
      if c2 = padChar then
        [b64Index c0 * 4 + b64Index c1 / 16]
      else if c3 = padChar then
        [b64Index c0 * 4 + b64Index c1 / 16, b64Index c1 % 16 * 16 + b64Index c2 / 4]
      else
        (b64Index c0 * 4 + b64Index c1 / 16) ::
        (b64Index c1 % 16 * 16 + b64Index c2 / 4) ::
        (b64Index c2 % 4 * 64 + b64Index c3) :: atob rest
  | _ => []

/-- `base64FromBlob` from the storage utilities:
`btoa(String.fromCharCode(...new Uint8Array(buffer)))`.  The blob is its
byte list, and `String.fromCharCode` is the identity in the
string-as-code-list model. -/
def base64FromBlob (bytes : List Nat) : List Nat :=
  btoa bytes

/-- The loop `for i: bytes[i] = binary.charCodeAt(i)` that both `playSound`
and `createAudioFromBase64` run over the string returned by `atob`:
index `i` of the output is character code `i` of the input. -/
def bytesFromBinaryString (binary : List Nat) : List Nat :=
  (List.range binary.length).map (fun i => binary.getD i 0)

/-- `createAudioFromBase64` from the storage utilities, up to the final
`Blob`/`Audio` wrapping: `atob` followed by per-character `charCodeAt`. -/
def createAudioFromBase64 (base64Data : List Nat) : List Nat :=
  bytesFromBinaryString (atob base64Data)

/-- The decoding prefix of `playSound` in the soundboard app: `atob`
followed by per-character `charCodeAt` into a `Uint8Array`. -/
def playSoundBytes (base64Data : List Nat) : List Nat :=
  bytesFromBinaryString (atob base64Data)

theorem b64Index_b64Char : ∀ n, n < 64 → b64Index (b64Char n) = n := by decide

theorem b64Char_ne_padChar : ∀ n, n < 64 → b64Char n ≠ padChar := by decide

theorem bytesFromBinaryString_eq (l : List Nat) : bytesFromBinaryString l = l := by
  apply List.ext_getElem (by simp [bytesFromBinaryString])
  intro i h1 h2
  simp [bytesFromBinaryString, List.getD_eq_getElem?_getD, List.getElem?_eq_getElem h2]

theorem atob_btoa : ∀ bs : List Nat, (∀ b ∈ bs, b < 256) → atob (btoa bs) = bs
  | [], _ => rfl
  | [b0], h => by
    have h0 : b0 < 256 := h b0 (by simp)
    simp only [btoa, atob, if_pos rfl]
    rw [b64Index_b64Char _ (by omega), b64Index_b64Char _ (by omega)]
    exact List.cons_eq_cons.mpr ⟨by omega, rfl⟩
  | [b0, b1], h => by
    have h0 : b0 < 256 := h b0 (by simp)
    have h1 : b1 < 256 := h b1 (by simp)
    have e2ne : b64Char (b1 % 16 * 4) ≠ padChar := b64Char_ne_padChar _ (by omega)
    simp only [btoa, atob, if_neg e2ne, if_pos rfl]
    rw [b64Index_b64Char _ (by omega), b64Index_b64Char _ (by omega),
      b64Index_b64Char _ (by omega)]
    exact List.cons_eq_cons.mpr ⟨by omega, List.cons_eq_cons.mpr ⟨by omega, rfl⟩⟩
  | b0 :: b1 :: b2 :: rest, h => by
    have h0 : b0 < 256 := h b0 (by simp)
    have h1 : b1 < 256 := h b1 (by simp)
    have h2 : b2 < 256 := h b2 (by simp)
    have e2ne : b64Char (b1 % 16 * 4 + b2 / 64) ≠ padChar := b64Char_ne_padChar _ (by omega)
    have e3ne : b64Char (b2 % 64) ≠ padChar := b64Char_ne_padChar _ (by omega)
    have ih := atob_btoa rest (fun b hb => h b (by simp [hb]))
    simp only [btoa, atob, if_neg e2ne, if_neg e3ne]
    rw [b64Index_b64Char _ (by omega), b64Index_b64Char _ (by omega),
      b64Index_b64Char _ (by omega), b64Index_b64Char _ (by omega), ih]
    exact List.cons_eq_cons.mpr ⟨by omega,
      List.cons_eq_cons.mpr ⟨by omega, List.cons_eq_cons.mpr ⟨by omega, rfl⟩⟩⟩

/-- C9: base64 audio encoding round-trips: decoding (`atob` followed by
per-character `charCodeAt`, as done by `playSound` and
`createAudioFromBase64`) the base64 string produced by `base64FromBlob`
(`btoa` over the bytes) yields exactly the original byte list, for every
byte list. -/
theorem base64_audio_roundtrip (bytes : List Nat) (h : ∀ b ∈ bytes, b < 256) :
    createAudioFromBase64 (base64FromBlob bytes) = bytes ∧
    playSoundBytes (base64FromBlob bytes) = bytes := by
  have := atob_btoa bytes h
  constructor
  · rw [createAudioFromBase64, base64FromBlob, this, bytesFromBinaryString_eq]
  · rw [playSoundBytes, base64FromBlob, this, bytesFromBinaryString_eq]

/-- Witness for `base64_audio_roundtrip` at the concrete byte list
`[0, 100, 255, 17]`. -/
theorem base64_audio_roundtrip_witness :
    createAudioFromBase64 (base64FromBlob [0, 100, 255, 17]) = [0, 100, 255, 17] ∧
    playSoundBytes (base64FromBlob [0, 100, 255, 17]) = [0, 100, 255, 17] :=
  base64_audio_roundtrip [0, 100, 255, 17] (by decide)

/-! ## Internet-explorer browsing history (`addToHistory`) -/

/-- A stored browsing-history entry, per the `HistoryEntry` interface of the
storage utilities. -/
structure HistoryEntry where
  url : String
  title : String
  favicon : Option String := none
  timestamp : Nat := 0
  year : Option String := none
deriving DecidableEq, Repr

/-- `addToHistory` from the storage utilities.  The `loadHistory()` /
`saveHistory(...)` localStorage pair is modelled as the input list
`history` and the returned list; `Date.now()` is passed in as `now`.  The
code stamps the entry, `unshift`s it, and saves `history.slice(0, 100)`. -/
def addToHistory (now : Nat) (entry : HistoryEntry) (history : List HistoryEntry) :
    List HistoryEntry :=
  ({ entry with timestamp := now } :: history).take 100

/-- C10: `addToHistory` stores the new entry (stamped with the current
time) at the front, followed by at most the first 99 previous entries, so
the persisted history never exceeds 100 entries. -/
theorem addToHistory_spec (now : Nat) (entry : HistoryEntry) (history : List HistoryEntry) :
    addToHistory now entry history =
      { entry with timestamp := now } :: history.take 99 ∧
    (addToHistory now entry history).length ≤ 100 := by
  constructor
  · rw [addToHistory, List.take_succ_cons]
  · rw [addToHistory]
    have := List.length_take 100 ({ entry with timestamp := now } :: history)
    omega

/-! ## JSON documents

`JSON.stringify` / `JSON.parse` are modelled by their standard semantics at
the level of JSON values: a document is a `Json` value, serializing an
object built by the app drops `undefined`-valued properties (the model
builds the object without them), and parsing the serialized text of such a
value yields the value back, so the file written by `exportBoard` and read
by `importBoard` is carried as a `Json` value. -/

inductive Json where
  | null : Json
  | bool (b : Bool) : Json
  | num (n : Int) : Json
  | str (s : String) : Json
  | arr (elems : List Json) : Json
  | obj (fields : List (String × Json)) : Json
deriving Repr

/-- Property lookup on an object field list (first match). -/
def lookupField : List (String × Json) → String → Option Json
  | [], _ => none
  | (k, v) :: rest, key => if k = key then some v else lookupField rest key

/-- JS property read `j.key` on values on which it does not throw:
`some v` when the object has the property, `none` for `undefined`. -/
def Json.getF : Json → String → Option Json
  | .obj fields, key => lookupField fields key
  | _, _ => none

/-- The keys of an object value, in order. -/
def Json.keys : Json → List String
  | .obj fields => fields.map Prod.fst
  | _ => []

/-- The elements of an array value. -/
def Json.arrElems : Json → List Json
  | .arr xs => xs
  | _ => []

/-- JS truthiness of a JSON value (`NaN` is not representable here). -/
def jsTruthy : Json → Bool
  | .null => false
  | .bool b => b
  | .num n => n != 0
  | .str s => s != ""
  | .arr _ => true
  | .obj _ => true

/-! ## Boards and slots -/

/-- `SoundSlot` from the soundboard app, without the in-memory
`waveform` object (a `WaveSurfer` UI handle that is never serialized).
`audioData` is `string | null` with `none` for JS `null`; `emoji` and
`title` are optional with `none` for JS `undefined`. -/
structure SoundSlot where
  audioData : Option String
  emoji : Option String := none
  title : Option String := none
deriving DecidableEq, Repr

/-- `Soundboard` from the soundboard app: a named collection of slots. -/
structure Soundboard where
  id : String
  name : String
  slots : List SoundSlot
deriving DecidableEq, Repr

/-- Serialization of an optional string property: `JSON.stringify` omits a
property whose value is `undefined`. -/
def optField (key : String) : Option String → List (String × Json)
  | some s => [(key, .str s)]
  | none => []

/-- The slot object `{ audioData, emoji, title }` built by `exportBoard`
(and `saveSoundboards`), as it appears in the serialized document:
`audioData` is kept (`null` when absent), `emoji` and `title` are dropped
by `JSON.stringify` when `undefined`, and `waveform` is never copied. -/
def slotToJson (slot : SoundSlot) : Json :=
  .obj (("audioData", match slot.audioData with
                      | some s => .str s
                      | none => .null) ::
    (optField "emoji" slot.emoji ++ optField "title" slot.title))

/-- The board object built by `exportBoard`: `{...board, slots: ...}`
keeps `id` and `name` and replaces `slots` by the stripped slot objects. -/
def boardToJson (board : Soundboard) : Json :=
  .obj [("id", .str board.id), ("name", .str board.name),
        ("slots", .arr (board.slots.map slotToJson))]

/-- `exportBoard` from the soundboard app: the JSON document
`{ boards: [...] }` written to the downloaded `soundboards.json` file. -/
def exportBoard (boards : List Soundboard) : Json :=
  .obj [("boards", .arr (boards.map boardToJson))]

/-- Reading one slot back in `importBoard`'s
`board.slots.map(slot => ({audioData, emoji, title}))`: `none` is a thrown
`TypeError` (property read on `null`).  A non-string `audioData` /
`emoji` / `title` is outside the declared TypeScript types and is read as
absent. -/
def slotFromJson : Json → Option SoundSlot
  | .null => none
  | .obj fields =>
      some { audioData := match lookupField fields "audioData" with
                          | some (.str s) => some s
                          | _ => none,
             emoji := match lookupField fields "emoji" with
                      | some (.str s) => some s
                      | _ => none,
             title := match lookupField fields "title" with
                      | some (.str s) => some s
                      | _ => none }
  | _ => some { audioData := none, emoji := none, title := none }

/-- `Array.prototype.map` with a fallible callback: the first thrown
error aborts the whole map. -/
def mapOrThrow (f : α → Option β) : List α → Option (List β)
  | [] => some []
  | a :: rest =>
      match f a with
      | none => none
      | some b =>
          match mapOrThrow f rest with
          | none => none
          | some bs => some (b :: bs)

/-- Reading one board back in `importBoard`:
`{...board, id: <fresh>, slots: board.slots.map(...)}`.  `none` is a
thrown error: `board.slots` is not an array (so `.map` is not a function),
or reading a slot threw.  A missing or non-string `name` is outside the
declared types and is read as `""`. -/
def boardFromJson (freshId : String) : Json → Option Soundboard
  | .obj fields =>
      match lookupField fields "slots" with
      | some (.arr slotJs) =>
          (mapOrThrow slotFromJson slotJs).map fun slots =>
            { id := freshId,
              name := match lookupField fields "name" with
                      | some (.str s) => s
                      | _ => "",
              slots := slots }
      | _ => none
  | _ => none

/-- `importedData.boards || [importedData]` from `importBoard`, together
with the requirement that the result be an array (otherwise the following
`.map` throws).  `none` is a thrown error: reading `.boards` on `null`,
or a truthy non-array `boards` property. -/
def importedBoardsList : Json → Option (List Json)
  | .null => none
  | .obj fields =>
      match lookupField fields "boards" with
      | some v =>
          if jsTruthy v then
            match v with
            | .arr xs => some xs
            | _ => none
          else some [Json.obj fields]
      | none => some [Json.obj fields]
  | j => some [j]

/-- The list of fresh boards built by `importBoard` from a parsed
document.  Each board receives a freshly generated id
(`Date.now().toString() + Math.random()...`), modelled by the supply
`fresh` indexed by the board's position.  `none` is an error thrown
before `saveBoards` runs. -/
def importBoards (fresh : Nat → String) (j : Json) : Option (List Soundboard) :=
  match importedBoardsList j with
  | none => none
  | some bjs => mapOrThrow (fun p => boardFromJson (fresh p.1) p.2) bjs.enum

/-- The effect of `importBoard`'s `reader.onload` handler on the board
list and the active board id.  `parsed` is the result of
`JSON.parse(e.target.result)`, with `none` for a parse exception.  Every
thrown error is caught by the surrounding `try`/`catch` (which only logs);
the board list changes only when `saveBoards([...boards, ...newBoards])`
is reached, and the active id only when `setActiveBoardId(newBoards[0].id)`
does not throw (it throws exactly when `newBoards` is empty, after a save
that appended nothing). -/
def importBoardUpdate (fresh : Nat → String) (parsed : Option Json)
    (boards : List Soundboard) (activeBoardId : String) :
    List Soundboard × String :=
  match parsed with
  | none => (boards, activeBoardId)
  | some j =>
    match importBoards fresh j with
    | none => (boards, activeBoardId)
    | some newBoards =>
      match newBoards with
      | [] => (boards, activeBoardId)
      | b0 :: _ => (boards ++ newBoards, b0.id)

theorem slotFromJson_slotToJson (s : SoundSlot) : slotFromJson (slotToJson s) = some s := by
  obtain ⟨a, e, t⟩ := s
  cases a <;> cases e <;> cases t <;>
    simp [slotToJson, slotFromJson, optField, lookupField]

theorem mapOrThrow_slotFromJson (slots : List SoundSlot) :
    mapOrThrow slotFromJson (slots.map slotToJson) = some slots := by
  induction slots with
  | nil => rfl
  | cons s rest ih => simp [mapOrThrow, slotFromJson_slotToJson, ih]

theorem boardFromJson_boardToJson (freshId : String) (b : Soundboard) :
    boardFromJson freshId (boardToJson b) = some { b with id := freshId } := by
  simp [boardToJson, boardFromJson, lookupField, mapOrThrow_slotFromJson]

theorem mapOrThrow_boardFromJson (fresh : Nat → String) (boards : List Soundboard) :
    ∀ n : Nat,
    mapOrThrow (fun p => boardFromJson (fresh p.1) p.2) ((boards.map boardToJson).enumFrom n) =
      some ((boards.enumFrom n).map fun p => { p.2 with id := fresh p.1 }) := by
  induction boards with
  | nil => intro n; rfl
  | cons b rest ih =>
    intro n
    simp [List.enumFrom, mapOrThrow, boardFromJson_boardToJson, ih (n + 1)]

theorem map_slots_enumFrom (fresh : Nat → String) (boards : List Soundboard) : ∀ n : Nat,
    ((boards.enumFrom n).map fun p => { p.2 with id := fresh p.1 }).map (·.slots) =
      boards.map (·.slots) := by
  induction boards with
  | nil => intro n; rfl
  | cons b rest ih =>
    intro n
    simp only [List.enumFrom, List.map_cons]
    exact congrArg (fun l => b.slots :: l) (ih (n + 1))

/-- C4: exporting via `exportBoard` and then importing the produced JSON
document via `importBoard` yields exactly the exported boards with
regenerated ids: name and slots — hence every slot's `audioData`, `emoji`
and `title` — are preserved slot for slot and in order. -/
theorem export_import_roundtrip (boards : List Soundboard) (fresh : Nat → String) :
    importBoards fresh (exportBoard boards) =
      some (boards.enum.map fun p => { p.2 with id := fresh p.1 }) ∧
    (importBoards fresh (exportBoard boards)).map (fun nbs => nbs.map (·.slots)) =
      some (boards.map (·.slots)) := by
  have hlist : importedBoardsList (exportBoard boards) = some (boards.map boardToJson) := rfl
  have hmain : importBoards fresh (exportBoard boards) =
      some (boards.enum.map fun p => { p.2 with id := fresh p.1 }) := by
    unfold importBoards
    rw [hlist]
    exact mapOrThrow_boardFromJson fresh boards 0
  refine ⟨hmain, ?_⟩
  rw [hmain]
  exact congrArg some (map_slots_enumFrom fresh boards 0)

/-! ## Shape of the exported document (C7) -/

/-- The `boards` array of the exported document, read back through the
generic accessors. -/
def exportedBoardsJson (boards : List Soundboard) : List Json :=
  (((exportBoard boards).getF "boards").getD .null).arrElems

/-- Board object `i` of the exported document. -/
def exportedBoardJson (boards : List Soundboard) (i : Nat) : Json :=
  (exportedBoardsJson boards).getD i .null

/-- Slot object `j` of board object `i` of the exported document. -/
def exportedSlotJson (boards : List Soundboard) (i j : Nat) : Json :=
  ((((exportedBoardJson boards i).getF "slots").getD .null).arrElems).getD j .null

theorem exportedBoardsJson_eq (boards : List Soundboard) :
    exportedBoardsJson boards = boards.map boardToJson := rfl

theorem exportedBoardJson_eq (boards : List Soundboard) (i : Nat) (hi : i < boards.length) :
    exportedBoardJson boards i = boardToJson (boards.get ⟨i, hi⟩) := by
  rw [exportedBoardJson, exportedBoardsJson_eq,
    List.getD_eq_getElem _ _ (by simpa using hi)]
  simp

theorem exportedSlotJson_eq (boards : List Soundboard) (i j : Nat)
    (hi : i < boards.length) (hj : j < (boards.get ⟨i, hi⟩).slots.length) :
    exportedSlotJson boards i j =
      slotToJson ((boards.get ⟨i, hi⟩).slots.get ⟨j, hj⟩) := by
  rw [exportedSlotJson, exportedBoardJson_eq boards i hi]
  have hslots : (boardToJson (boards.get ⟨i, hi⟩)).getF "slots" =
      some (.arr ((boards.get ⟨i, hi⟩).slots.map slotToJson)) := by
    simp [boardToJson, Json.getF, lookupField]
  rw [hslots]
  simp only [Option.getD_some, Json.arrElems]
  rw [List.getD_eq_getElem _ _ (by simpa using hj)]
  simp

/-- C7 (amended): `exportBoard` produces an object whose single key is
`boards`, an array with one `{id, name, slots}` object per board; every
slot object's keys are among `audioData`, `emoji`, `title`; `audioData`
is always present (`null` when the slot has no audio), while `emoji` and
`title` are present exactly when the slot defines them (`JSON.stringify`
drops `undefined`-valued properties); the in-memory `waveform` object
never appears. -/
theorem exportBoard_shape (boards : List Soundboard) (i j : Nat)
    (hi : i < boards.length) (hj : j < (boards.get ⟨i, hi⟩).slots.length) :
    (exportBoard boards).keys = ["boards"] ∧
    (exportedBoardsJson boards).length = boards.length ∧
    (exportedBoardJson boards i).keys = ["id", "name", "slots"] ∧
    (∀ k ∈ (exportedSlotJson boards i j).keys,
      k ∈ (["audioData", "emoji", "title"] : List String)) ∧
    "audioData" ∈ (exportedSlotJson boards i j).keys ∧
    ("emoji" ∈ (exportedSlotJson boards i j).keys ↔
      ((boards.get ⟨i, hi⟩).slots.get ⟨j, hj⟩).emoji.isSome) ∧
    ("title" ∈ (exportedSlotJson boards i j).keys ↔
      ((boards.get ⟨i, hi⟩).slots.get ⟨j, hj⟩).title.isSome) ∧
    "waveform" ∉ (exportedSlotJson boards i j).keys := by
  have hslot := exportedSlotJson_eq boards i j hi hj
  refine ⟨rfl, by simp [exportedBoardsJson_eq], ?_, ?_, ?_, ?_, ?_, ?_⟩
  · rw [exportedBoardJson_eq boards i hi]; rfl
  all_goals rw [hslot]
  all_goals generalize (boards.get ⟨i, hi⟩).slots.get ⟨j, hj⟩ = slot
  all_goals obtain ⟨a, e, t⟩ := slot
  all_goals cases a <;> cases e <;> cases t <;>
    simp [slotToJson, optField, Json.keys]

/-- A one-slot board with audio, emoji and title, used as witness input. -/
def sampleFullBoard : Soundboard :=
  { id := "b", name := "n",
    slots := [{ audioData := some "zz", emoji := some "🎉", title := some "t" }] }

/-- Witness for `exportBoard_shape` at a one-board, one-slot list. -/
theorem exportBoard_shape_witness :
    (exportBoard [sampleFullBoard]).keys = ["boards"] :=
  (exportBoard_shape [sampleFullBoard] 0 0 (by decide) (by decide)).1

/-- C7 counterexample: a slot with no recording, emoji or title is
serialized as `{"audioData": null}` — its slot object does not contain
exactly the fields `audioData`, `emoji` and `title`. -/
theorem exportBoard_slot_fields_cex :
    (exportedSlotJson [{ id := "b1", name := "board", slots := [{ audioData := none }] }]
        0 0).keys = ["audioData"] ∧
    (exportedSlotJson [{ id := "b1", name := "board", slots := [{ audioData := none }] }]
        0 0).keys ≠ ["audioData", "emoji", "title"] := by
  constructor
  · rfl
  · decide

/-! ## Import failure handling (C8) -/

/-- C8: when the file contents fail to parse as JSON (`parsed = none`), or
parse to a value without a usable boards structure (`importBoards` throws,
i.e. returns `none`), the `try`/`catch` in `importBoard` swallows the
error (logging it) and both the board list and the active board id are
left unchanged; the handler returns normally, so no structured error
propagates. -/
theorem importBoard_failure_unchanged (fresh : Nat → String) (parsed : Option Json)
    (boards : List Soundboard) (activeBoardId : String)
    (h : parsed = none ∨ ∃ j, parsed = some j ∧ importBoards fresh j = none) :
    importBoardUpdate fresh parsed boards activeBoardId = (boards, activeBoardId) := by
  rcases h with h | ⟨j, hj, hfail⟩
  · subst h; rfl
  · subst hj
    simp only [importBoardUpdate, hfail]

/-- Witness for `importBoard_failure_unchanged`: importing a file whose
contents parse to `null` (reading `null.boards` throws). -/
theorem importBoard_failure_unchanged_witness :
    importBoardUpdate (fun _ => "id0") (some .null)
      [{ id := "d", name := "D", slots := [] }] "d" =
      ([{ id := "d", name := "D", slots := [] }], "d") :=
  importBoard_failure_unchanged (fun _ => "id0") (some .null)
    [{ id := "d", name := "D", slots := [] }] "d" (Or.inr ⟨.null, rfl, rfl⟩)

/-! ## Slot clicks (C6) -/

/-- JS truthiness of the `string | null` field `slot.audioData`
(`null` and `""` are falsy). -/
def jsTruthyStr : Option String → Bool
  | some s => s != ""
  | none => false

/-- `PlaybackState` from the soundboard app. -/
structure PlaybackState where
  isRecording : Bool
  isPlaying : Bool
deriving DecidableEq, Repr

/-- The four actions `handleSlotClick` can dispatch to. -/
inductive SlotAction where
  | playSound (index : Nat)
  | stopSound (index : Nat)
  | startRecording (index : Nat)
  | stopRecording
deriving DecidableEq, Repr

/-- `handleSlotClick` from the soundboard app, as the action it
dispatches.  `none` models the `TypeError` thrown when the index is out
of range of `activeBoard.slots` or `playbackStates` (both reads happen
before any action is taken). -/
def handleSlotClick (slots : List SoundSlot) (playbackStates : List PlaybackState)
    (index : Nat) : Option SlotAction :=
  match slots.get? index with
  | none => none
  | some slot =>
    match playbackStates.get? index with
    | none => none
    | some st =>
      if jsTruthyStr slot.audioData then
        some (if st.isPlaying then .stopSound index else .playSound index)
      else if !st.isRecording then some (.startRecording index)
      else some .stopRecording

/-- C6: clicking a slot of the active board that has no `audioData` and is
not already recording starts a recording targeted at that slot (and in
particular does not start playback). -/
theorem handleSlotClick_starts_recording (slots : List SoundSlot)
    (playbackStates : List PlaybackState) (index : Nat) (slot : SoundSlot)
    (st : PlaybackState)
    (hs : slots.get? index = some slot)
    (hp : playbackStates.get? index = some st)
    (ha : slot.audioData = none)
    (hr : st.isRecording = false) :
    handleSlotClick slots playbackStates index = some (.startRecording index) := by
  unfold handleSlotClick
  rw [hs, hp]
  simp [jsTruthyStr, ha, hr]

/-- Witness for `handleSlotClick_starts_recording` on a one-slot board. -/
theorem handleSlotClick_starts_recording_witness :
    handleSlotClick [{ audioData := none }]
      [{ isRecording := false, isPlaying := false }] 0 =
      some (.startRecording 0) :=
  handleSlotClick_starts_recording _ _ 0 _ _ rfl rfl rfl rfl

/-! ## Board list operations (C5) -/

/-- The empty slot `{ audioData: null, emoji: undefined, title: undefined }`. -/
def emptySlot : SoundSlot := { audioData := none, emoji := none, title := none }

/-- The default board created when nothing is stored. -/
def defaultBoard : Soundboard :=
  { id := "default", name := "New Soundboard", slots := List.replicate 9 emptySlot }

/-- The soundboard app state the board operations act on: the board list
and the active board id. -/
structure BoardsState where
  boards : List Soundboard
  activeBoardId : String
deriving DecidableEq, Repr

/-- `addNewBoard`: appends a fresh 9-slot board and makes it active.  The
generated id `Date.now().toString()` is passed in as `newId`. -/
def addNewBoard (newId : String) (s : BoardsState) : BoardsState :=
  { boards := s.boards ++
      [{ id := newId, name := "New Soundboard", slots := List.replicate 9 emptySlot }],
    activeBoardId := newId }

/-- `deleteCurrentBoard`: refuses to act on a single-board list, otherwise
removes every board whose id equals the active id and activates the first
remaining board.  When no board remains, `newBoards[0].id` throws after
`saveBoards` already ran, so the empty list is saved and the active id is
left as it was. -/
def deleteCurrentBoard (s : BoardsState) : BoardsState :=
  if s.boards.length ≤ 1 then s
  else
    let newBoards := s.boards.filter fun b => b.id != s.activeBoardId
    { boards := newBoards,
      activeBoardId :=
        match newBoards with
        | [] => s.activeBoardId
        | b0 :: _ => b0.id }

/-- `updateBoardName`: renames the active board. -/
def updateBoardName (name : String) (s : BoardsState) : BoardsState :=
  { s with boards := s.boards.map fun b =>
      if b.id = s.activeBoardId then { b with name := name } else b }

/-- `handleRecordingStop`'s board update: stores the recorded base64 audio
into the clicked slot of the active board.  If some board with the active
id lacks slot `slotIndex`, the read `board.slots[slotIndex].emoji` throws
before `saveBoards` runs and the state is unchanged. -/
def handleRecordingStop (slotIndex : Nat) (base64 : String) (s : BoardsState) : BoardsState :=
  if s.boards.all fun b => b.id != s.activeBoardId || (b.slots.get? slotIndex).isSome then
    { s with boards := s.boards.map fun b =>
        if b.id = s.activeBoardId then
          { b with slots :=
              match b.slots.get? slotIndex with
              | some old => b.slots.set slotIndex
                  { audioData := some base64, emoji := old.emoji, title := old.title }
              | none => b.slots }
        else b }
  else s

/-- `handleDelete`: clears slot `index` of the active board.  (The UI only
passes indices `0..8`; `List.set` ignores an out-of-range index.) -/
def handleDelete (index : Nat) (s : BoardsState) : BoardsState :=
  { s with boards := s.boards.map fun b =>
      if b.id = s.activeBoardId then { b with slots := b.slots.set index emptySlot }
      else b }

/-- The board picker entry `onClick={() => setActiveBoardId(board.id)}`. -/
def selectBoard (id : String) (s : BoardsState) : BoardsState :=
  { s with activeBoardId := id }

/-- `importBoard` as a transformer of the boards state. -/
def importBoardOp (fresh : Nat → String) (parsed : Option Json) (s : BoardsState) :
    BoardsState :=
  { boards := (importBoardUpdate fresh parsed s.boards s.activeBoardId).1,
    activeBoardId := (importBoardUpdate fresh parsed s.boards s.activeBoardId).2 }

/-- The board-list operations of the soundboard app. -/
inductive BoardOp where
  | addNewBoard (newId : String)
  | deleteCurrentBoard
  | updateBoardName (name : String)
  | handleRecordingStop (slotIndex : Nat) (base64 : String)
  | handleDelete (index : Nat)
  | importBoard (fresh : Nat → String) (parsed : Option Json)
  | selectBoard (id : String)

def applyBoardOp : BoardOp → BoardsState → BoardsState
  | .addNewBoard newId, s => addNewBoard newId s
  | .deleteCurrentBoard, s => deleteCurrentBoard s
  | .updateBoardName name, s => updateBoardName name s
  | .handleRecordingStop i d, s => handleRecordingStop i d s
  | .handleDelete i, s => handleDelete i s
  | .importBoard fresh parsed, s => importBoardOp fresh parsed s
  | .selectBoard id, s => selectBoard id s

def runBoardOps (ops : List BoardOp) (s : BoardsState) : BoardsState :=
  ops.foldl (fun s op => applyBoardOp op s) s

/-- The initial state: the default board is the only board and is active. -/
def initialBoardsState : BoardsState :=
  { boards := [defaultBoard], activeBoardId := "default" }

/-- C5 counterexample: when `Date.now()` returns the same millisecond for
two `addNewBoard` clicks, the two boards share an id; selecting the
default board, deleting it, and deleting again removes both remaining
boards at once, leaving the reachable state with an empty board list. -/
theorem boards_can_become_empty :
    (runBoardOps
      [.addNewBoard "1700000000000", .addNewBoard "1700000000000",
       .selectBoard "default", .deleteCurrentBoard, .deleteCurrentBoard]
      initialBoardsState).boards = [] := by decide

theorem length_filter_ne_of_nodup (l : List Soundboard) (a : String)
    (hnd : (l.map (·.id)).Nodup) :
    l.length ≤ (l.filter fun b => b.id != a).length + 1 := by
  induction l with
  | nil => simp
  | cons b rest ih =>
    simp only [List.map_cons, List.nodup_cons] at hnd
    obtain ⟨hmem, hnd⟩ := hnd
    by_cases hb : b.id = a
    · have hrest : rest.filter (fun x => x.id != a) = rest := by
        apply List.filter_eq_self.mpr
        intro x hx
        have : x.id ≠ a := by
          intro hxa
          exact hmem (by
            rw [hb, ← hxa]
            exact List.mem_map_of_mem (·.id) hx)
        simpa using this
      simp [List.filter_cons, hb, hrest]
    · have := ih hnd
      simp only [List.filter_cons]
      have hba : (b.id != a) = true := by simpa using hb
      rw [hba]
      simp only [if_true, List.length_cons]
      omega

/-- C5 (amended): `deleteCurrentBoard` leaves the state unchanged on a
single-board list; every operation other than `deleteCurrentBoard`
preserves non-emptiness of the board list unconditionally; and
`deleteCurrentBoard` preserves it whenever the board ids are pairwise
distinct (as timestamp-based generation intends — id collisions are what
the counterexample exploits). -/
theorem boardOps_preserve_nonempty (s : BoardsState) (hne : s.boards ≠ []) :
    (s.boards.length = 1 → deleteCurrentBoard s = s) ∧
    (∀ op : BoardOp, op ≠ .deleteCurrentBoard → (applyBoardOp op s).boards ≠ []) ∧
    ((s.boards.map (·.id)).Nodup → ∀ op : BoardOp, (applyBoardOp op s).boards ≠ []) := by
  have hdel : (s.boards.map (·.id)).Nodup → (deleteCurrentBoard s).boards ≠ [] := by
    intro hnd
    unfold deleteCurrentBoard
    by_cases hlen : s.boards.length ≤ 1
    · simpa [hlen] using hne
    · have hcount := length_filter_ne_of_nodup s.boards s.activeBoardId hnd
      simp only [if_neg hlen]
      intro hempty
      rw [hempty] at hcount
      simp at hcount
      omega
  have hops : ∀ op : BoardOp, op ≠ .deleteCurrentBoard → (applyBoardOp op s).boards ≠ [] := by
    intro op hop
    cases op with
    | addNewBoard newId => simp [applyBoardOp, addNewBoard]
    | deleteCurrentBoard => exact absurd rfl hop
    | updateBoardName name => simpa [applyBoardOp, updateBoardName] using hne
    | handleRecordingStop i d =>
        simp only [applyBoardOp, handleRecordingStop]
        split
        · simpa using hne
        · exact hne
    | handleDelete i => simpa [applyBoardOp, handleDelete] using hne
    | importBoard fresh parsed =>
        show (importBoardUpdate fresh parsed s.boards s.activeBoardId).1 ≠ []
        cases parsed with
        | none => exact hne
        | some j =>
          cases himp : importBoards fresh j with
          | none => simp only [importBoardUpdate, himp]; exact hne
          | some newBoards =>
            cases newBoards with
            | nil => simp only [importBoardUpdate, himp]; exact hne
            | cons b0 rest =>
              simp only [importBoardUpdate, himp]
              simp
    | selectBoard id => simpa [applyBoardOp, selectBoard] using hne
  refine ⟨?_, hops, ?_⟩
  · intro hlen
    unfold deleteCurrentBoard
    simp [hlen]
  · intro hnd op
    cases op with
    | deleteCurrentBoard => exact hdel hnd
    | addNewBoard newId => exact hops _ (by intro h; cases h)
    | updateBoardName name => exact hops _ (by intro h; cases h)
    | handleRecordingStop i d => exact hops _ (by intro h; cases h)
    | handleDelete i => exact hops _ (by intro h; cases h)
    | importBoard fresh parsed => exact hops _ (by intro h; cases h)
    | selectBoard id => exact hops _ (by intro h; cases h)

/-- A two-board state with distinct ids, used as witness input. -/
def sampleBoardsState : BoardsState :=
  { boards := [{ id := "a", name := "A", slots := [] },
               { id := "b", name := "B", slots := [] }],
    activeBoardId := "a" }

/-- Witness for `boardOps_preserve_nonempty`: deleting the active board of
a two-board list with distinct ids leaves a non-empty list. -/
theorem boardOps_preserve_nonempty_witness :
    (applyBoardOp .deleteCurrentBoard sampleBoardsState).boards ≠ [] :=
  (boardOps_preserve_nonempty sampleBoardsState (by decide)).2.2 (by decide)
    .deleteCurrentBoard

end Soundboard

namespace Paint

/-! ## Paint canvas undo/redo history

`historyRef.current` is the snapshot stack, `historyIndexRef.current` the
cursor (`-1` before the first save), and the canvas pixel buffer the
current content.  Snapshots (the code's `ImageData`) are values of an
arbitrary type `α`; `hasCanvasChanged` is abstracted as the comparison
`changed` (its sampling loop is modelled separately below). -/

structure PaintState (α : Type) where
  canvas : α
  history : List α
  index : Int

/-- The unconditional tail of `saveToHistory`: drop the redo states
(`slice(0, index + 1)`), cap the stack at 50 (`slice(-49)` and clamping
the cursor to 48), push the current canvas and advance the cursor. -/
def pushCurrent {α : Type} (s : PaintState α) : PaintState α :=
  let h1 := s.history.take (s.index + 1).toNat
  if h1.length ≥ 50 then
    { canvas := s.canvas,
      history := h1.drop (h1.length - 49) ++ [s.canvas],
      index := min s.index 48 + 1 }
  else
    { canvas := s.canvas, history := h1 ++ [s.canvas], index := s.index + 1 }

/-- `saveToHistory`: when the cursor points at a snapshot, compare it with
the current canvas and return unchanged when equal; `none` models the
`TypeError` thrown by `hasCanvasChanged` when `history[index]` is
`undefined` (never reached from the component's states). -/
def saveToHistory {α : Type} (changed : α → α → Bool) (s : PaintState α) :
    Option (PaintState α) :=
  if s.index ≥ 0 then
    match s.history.get? s.index.toNat with
    | none => none
    | some prev =>
      if changed prev s.canvas then some (pushCurrent s) else some s
  else some (pushCurrent s)

/-- `undo` from the imperative handle: step the cursor back and restore
that snapshot onto the canvas (`putImageData` is skipped when the
snapshot is missing). -/
def undo {α : Type} (s : PaintState α) : PaintState α :=
  if s.index > 0 then
    { canvas := (s.history.get? (s.index - 1).toNat).getD s.canvas,
      history := s.history, index := s.index - 1 }
  else s

/-- `redo` from the imperative handle. -/
def redo {α : Type} (s : PaintState α) : PaintState α :=
  if s.index < (s.history.length : Int) - 1 then
    { canvas := (s.history.get? (s.index + 1).toNat).getD s.canvas,
      history := s.history, index := s.index + 1 }
  else s

/-- A completed drawing operation: the canvas now holds `c` and
`saveToHistory` runs. -/
def stroke {α : Type} (changed : α → α → Bool) (c : α) (s : PaintState α) :
    Option (PaintState α) :=
  saveToHistory changed { s with canvas := c }

/-- The history-relevant operations of the paint canvas. -/
inductive PaintOp (α : Type) where
  | stroke (c : α)
  | undo
  | redo

def applyPaintOp {α : Type} (changed : α → α → Bool) :
    PaintOp α → PaintState α → Option (PaintState α)
  | .stroke c, s => stroke changed c s
  | .undo, s => some (undo s)
  | .redo, s => some (redo s)

def runPaintOps {α : Type} (changed : α → α → Bool) :
    List (PaintOp α) → PaintState α → Option (PaintState α)
  | [], s => some s
  | op :: rest, s =>
      match applyPaintOp changed op s with
      | none => none
      | some s2 => runPaintOps changed rest s2

/-- The component mounts with an empty history (`[]`, cursor `-1`) and
runs `saveToHistory` once for the initial canvas state. -/
def initPaint {α : Type} (changed : α → α → Bool) (c0 : α) : Option (PaintState α) :=
  saveToHistory changed { canvas := c0, history := [], index := -1 }

/-- `hasCanvasChanged` for same-sized snapshots modelled as flat byte
lists: dimensions compared first, then every 16th byte. -/
structure ImageData where
  width : Nat
  height : Nat
  data : List Nat
deriving DecidableEq, Repr

def hasCanvasChanged (prev new : ImageData) : Bool :=
  prev.width != new.width || prev.height != new.height ||
    (List.range ((prev.data.length + 15) / 16)).any fun k =>
      prev.data.getD (16 * k) 0 != new.data.getD (16 * k) 0

/-! ### The history invariant (C3) -/

/-- `good s`: the cursor is a valid position and the stack holds at most
50 snapshots. -/
def good {α : Type} (s : PaintState α) : Prop :=
  s.history.length ≤ 50 ∧ 0 ≤ s.index ∧ s.index < (s.history.length : Int)

theorem pushCurrent_good {α : Type} (s : PaintState α)
    (hlen : s.history.length ≤ 50) (hlo : -1 ≤ s.index)
    (hhi : s.index < (s.history.length : Int)) :
    good (pushCurrent s) := by
  have htake : (s.history.take (s.index + 1).toNat).length = (s.index + 1).toNat := by
    rw [List.length_take]
    omega
  by_cases hge : (s.history.take (s.index + 1).toNat).length ≥ 50
  · unfold good
    simp only [pushCurrent, if_pos hge, List.length_append, List.length_drop,
      List.length_cons, List.length_nil]
    refine ⟨by omega, by omega, by omega⟩
  · unfold good
    simp only [pushCurrent, if_neg hge, List.length_append, List.length_cons,
      List.length_nil]
    refine ⟨by omega, by omega, by omega⟩

theorem saveToHistory_good {α : Type} (changed : α → α → Bool) (s : PaintState α)
    (h : good s) : ∃ s2, saveToHistory changed s = some s2 ∧ good s2 := by
  obtain ⟨hlen, hlo, hhi⟩ := h
  unfold saveToHistory
  rw [if_pos hlo]
  have hidx : s.index.toNat < s.history.length := by omega
  obtain ⟨prev, hprev⟩ : ∃ prev, s.history.get? s.index.toNat = some prev :=
    ⟨_, List.get?_eq_get hidx⟩
  rw [hprev]
  show ∃ s2, (if changed prev s.canvas then some (pushCurrent s) else some s) = some s2 ∧
    good s2
  by_cases hch : changed prev s.canvas
  · rw [if_pos hch]
    exact ⟨_, rfl, pushCurrent_good s hlen (by omega) hhi⟩
  · rw [if_neg hch]
    exact ⟨s, rfl, hlen, hlo, hhi⟩

theorem undo_good {α : Type} (s : PaintState α) (h : good s) : good (undo s) := by
  obtain ⟨hlen, hlo, hhi⟩ := h
  unfold undo good
  split
  · rename_i hpos
    dsimp only
    refine ⟨hlen, by omega, by omega⟩
  · exact ⟨hlen, hlo, hhi⟩

theorem redo_good {α : Type} (s : PaintState α) (h : good s) : good (redo s) := by
  obtain ⟨hlen, hlo, hhi⟩ := h
  unfold redo good
  split
  · rename_i hpos
    dsimp only
    refine ⟨hlen, by omega, by omega⟩
  · exact ⟨hlen, hlo, hhi⟩

theorem applyPaintOp_good {α : Type} (changed : α → α → Bool) (op : PaintOp α)
    (s : PaintState α) (h : good s) :
    ∃ s2, applyPaintOp changed op s = some s2 ∧ good s2 := by
  cases op with
  | stroke c =>
      have := saveToHistory_good changed { s with canvas := c } ⟨h.1, h.2.1, h.2.2⟩
      exact this
  | undo => exact ⟨undo s, rfl, undo_good s h⟩
  | redo => exact ⟨redo s, rfl, redo_good s h⟩

theorem runPaintOps_good {α : Type} (changed : α → α → Bool) :
    ∀ (ops : List (PaintOp α)) (s : PaintState α), good s →
    ∃ s2, runPaintOps changed ops s = some s2 ∧ good s2
  | [], s, h => ⟨s, rfl, h⟩
  | op :: rest, s, h => by
      obtain ⟨s2, hs2, hg2⟩ := applyPaintOp_good changed op s h
      obtain ⟨s3, hs3, hg3⟩ := runPaintOps_good changed rest s2 hg2
      refine ⟨s3, ?_, hg3⟩
      simp only [runPaintOps, hs2]
      exact hs3

theorem initPaint_eq {α : Type} (changed : α → α → Bool) (c0 : α) :
    initPaint changed c0 = some { canvas := c0, history := [c0], index := 0 } := rfl

/-- C3: from the component's mount (initial save) on, under every sequence
of drawing, undo and redo operations, the paint history stack never holds
more than 50 snapshots and the cursor always satisfies
`0 ≤ index < length` (in particular after every `saveToHistory`, which is
the only operation that grows the stack). -/
theorem paint_history_bounded {α : Type} (changed : α → α → Bool) (c0 : α)
    (ops : List (PaintOp α)) :
    ∃ s : PaintState α,
      (initPaint changed c0).bind (runPaintOps changed ops) = some s ∧
      s.history.length ≤ 50 ∧ 0 ≤ s.index ∧ s.index < (s.history.length : Int) := by
  rw [initPaint_eq, Option.some_bind]
  have hgood : good { canvas := c0, history := [c0], index := 0 } := by
    refine ⟨by simp, by simp, by simp⟩
  obtain ⟨s, hs, hg⟩ := runPaintOps_good changed ops _ hgood
  exact ⟨s, hs, hg.1, hg.2.1, hg.2.2⟩

/-! ### Undo restores earlier snapshots (C2) -/

/-- The state reached after the snapshots `front ++ [c]` have been
recorded in order: the stack holds the last 50 of them, the cursor points
at the final one, and the canvas shows it. -/
def stackedState {α : Type} (front : List α) (c : α) : PaintState α :=
  { canvas := c,
    history := front.drop (front.length + 1 - 50) ++ [c],
    index := (((front.drop (front.length + 1 - 50)).length : Nat) : Int) }

/-- Each stroke's canvas differs (per the comparison) from the previous
one, so `saveToHistory` records every stroke. -/
def chainChanged {α : Type} (changed : α → α → Bool) : α → List α → Bool
  | _, [] => true
  | prev, c :: rest => changed prev c && chainChanged changed c rest

theorem initPaint_stacked {α : Type} (changed : α → α → Bool) (c0 : α) :
    initPaint changed c0 = some (stackedState [] c0) := rfl

theorem pushCurrent_stacked {α : Type} (front : List α) (c c2 : α) :
    pushCurrent { canvas := c2, history := front.drop (front.length + 1 - 50) ++ [c],
                  index := (((front.drop (front.length + 1 - 50)).length : Nat) : Int) } =
      stackedState (front ++ [c]) c2 := by
  set D := front.drop (front.length + 1 - 50) with hD
  have hDlen : D.length = front.length - (front.length + 1 - 50) := by
    rw [hD, List.length_drop]
  have htoNat : (((D.length : Nat) : Int) + 1).toNat = D.length + 1 := by omega
  have htake : (D ++ [c]).take (D.length + 1) = D ++ [c] :=
    List.take_of_length_le (by simp)
  unfold pushCurrent
  dsimp only
  rw [htoNat, htake]
  by_cases hbig : front.length ≥ 49
  · have hD49 : D.length = 49 := by omega
    rw [if_pos (by simp only [List.length_append, List.length_cons, List.length_nil]; omega)]
    have hE : (front ++ [c]).drop (front.length + 1 + 1 - 50) =
        front.drop (front.length + 1 + 1 - 50) ++ [c] :=
      List.drop_append_of_le_length (by omega)
    have hdrop1 : (D ++ [c]).drop (D.length + 1 - 49) = D.drop 1 ++ [c] := by
      rw [hD49]
      exact List.drop_append_of_le_length (by omega)
    have hDdrop : D.drop 1 = front.drop (front.length + 1 + 1 - 50) := by
      rw [hD, List.drop_drop]
      congr 1
      omega
    unfold stackedState
    simp only [List.length_append, List.length_cons, List.length_nil, List.length_drop,
      hdrop1, hDdrop, hE, PaintState.mk.injEq, true_and, and_true]
    omega
  · have hD0 : front.length + 1 - 50 = 0 := by omega
    have hDfront : D = front := by rw [hD, hD0, List.drop_zero]
    rw [if_neg (by simp only [List.length_append, List.length_cons, List.length_nil]; omega)]
    have hE0 : front.length + 1 + 1 - 50 = 0 := by omega
    unfold stackedState
    simp only [List.length_append, List.length_cons, List.length_nil, List.length_drop,
      hE0, List.drop_zero, hDfront, PaintState.mk.injEq, true_and, and_true]
    omega

theorem stroke_stacked {α : Type} (changed : α → α → Bool) (front : List α) (c c2 : α)
    (hch : changed c c2 = true) :
    stroke changed c2 (stackedState front c) = some (stackedState (front ++ [c]) c2) := by
  unfold stroke saveToHistory stackedState
  dsimp only
  rw [if_pos (by omega)]
  have htoNat : (((((front.drop (front.length + 1 - 50)).length : Nat)) : Int)).toNat =
      (front.drop (front.length + 1 - 50)).length := by omega
  rw [htoNat, List.get?_concat_length]
  show (if changed c c2 then _ else _) = _
  rw [if_pos hch]
  exact congrArg some (pushCurrent_stacked front c c2)

theorem runStrokes_stacked {α : Type} (changed : α → α → Bool) :
    ∀ (cs : List α) (front : List α) (c : α), chainChanged changed c cs = true →
    ∃ front2 c2,
      runPaintOps changed (cs.map PaintOp.stroke) (stackedState front c) =
        some (stackedState front2 c2) ∧
      front2 ++ [c2] = front ++ c :: cs
  | [], front, c, _ => ⟨front, c, rfl, by simp⟩
  | c2 :: rest, front, c, h => by
      simp only [chainChanged, Bool.and_eq_true] at h
      obtain ⟨front2, c3, hrun, heq⟩ :=
        runStrokes_stacked changed rest (front ++ [c]) c2 h.2
      refine ⟨front2, c3, ?_, by rw [heq]; simp⟩
      simp only [List.map_cons, runPaintOps, applyPaintOp,
        stroke_stacked changed front c c2 h.1]
      exact hrun

theorem undo_iterate {α : Type} :
    ∀ (k : Nat) (H : List α) (i : Nat) (cv : α), k ≤ i → H.get? i = some cv →
    undo^[k] { canvas := cv, history := H, index := ((i : Nat) : Int) } =
      { canvas := (H.get? (i - k)).getD cv, history := H, index := (((i - k : Nat) : Nat) : Int) }
  | 0, H, i, cv, _, hcv => by
      rw [List.get?_eq_getElem?] at hcv
      simp [hcv]
  | k + 1, H, i, cv, hk, hcv => by
      have hilen : i < H.length := List.get?_eq_some.mp hcv |>.1
      have hpos : ((i : Nat) : Int) > 0 := by omega
      rw [Function.iterate_succ_apply]
      have hundo : undo { canvas := cv, history := H, index := ((i : Nat) : Int) } =
          { canvas := (H.get? (i - 1)).getD cv, history := H,
            index := (((i - 1 : Nat) : Nat) : Int) } := by
        unfold undo
        rw [if_pos hpos]
        have : (((i : Nat) : Int) - 1).toNat = i - 1 := by omega
        rw [this]
        have : ((i : Nat) : Int) - 1 = (((i - 1 : Nat) : Nat) : Int) := by omega
        rw [this]
      rw [hundo]
      obtain ⟨v, hv⟩ : ∃ v, H.get? (i - 1) = some v :=
        ⟨_, List.get?_eq_get (by omega)⟩
      rw [hv, Option.getD_some]
      rw [undo_iterate k H (i - 1) v (by omega) hv]
      have harith : i - 1 - k = i - (k + 1) := by omega
      rw [harith]
      obtain ⟨w, hw⟩ : ∃ w, H.get? (i - (k + 1)) = some w :=
        ⟨_, List.get?_eq_get (by omega)⟩
      rw [hw, Option.getD_some, Option.getD_some]

/-- C2: after the component's initial save and `N` completed drawing
strokes each recorded in the paint history (each stroke's canvas differs
from the previous snapshot), the history cursor is `min N 49`, and
applying `undo` `k` times, for any `k ≤ N` not exceeding that cursor,
restores the canvas to the state it had before the last `k` strokes. -/
theorem undo_restores {α : Type} (changed : α → α → Bool) (c0 : α) (cs : List α)
    (k : Nat) (hch : chainChanged changed c0 cs = true)
    (hk : k ≤ min cs.length 49) :
    ∃ s : PaintState α,
      (initPaint changed c0).bind (runPaintOps changed (cs.map PaintOp.stroke)) = some s ∧
      s.index = ((min cs.length 49 : Nat) : Int) ∧
      (undo^[k] s).canvas = (c0 :: cs).getD (cs.length - k) c0 := by
  rw [initPaint_stacked, Option.some_bind]
  obtain ⟨front2, c2, hrun, heq⟩ := runStrokes_stacked changed cs [] c0 hch
  have hlenfront : front2.length = cs.length := by
    have := congrArg List.length heq
    simp at this
    omega
  set D := front2.drop (front2.length + 1 - 50) with hD
  have hDlen : D.length = min cs.length 49 := by
    rw [hD, List.length_drop]
    omega
  refine ⟨stackedState front2 c2, hrun, ?_, ?_⟩
  · show ((D.length : Nat) : Int) = ((min cs.length 49 : Nat) : Int)
    rw [hDlen]
  have hget : (D ++ [c2]).get? D.length = some c2 := List.get?_concat_length D c2
  have hiter := undo_iterate k (D ++ [c2]) D.length c2 (by omega) hget
  show (undo^[k] { canvas := c2, history := D ++ [c2], index := ((D.length : Nat) : Int) }).canvas = _
  rw [hiter]
  have hfull : D ++ [c2] = (c0 :: cs).drop (front2.length + 1 - 50) := by
    rw [hD, ← List.drop_append_of_le_length (by omega), heq, List.nil_append]
  rw [hfull, List.get?_drop]
  have harith : front2.length + 1 - 50 + (D.length - k) = cs.length - k := by omega
  rw [harith]
  obtain ⟨w, hw⟩ : ∃ w, (c0 :: cs).get? (cs.length - k) = some w :=
    ⟨_, List.get?_eq_get (by simp; omega)⟩
  rw [hw, Option.getD_some, List.getD_eq_getElem?_getD, ← List.get?_eq_getElem?, hw,
    Option.getD_some]

/-- Witness for `undo_restores`: three recorded strokes on `Nat` canvases,
then two undos, restore the canvas after the first stroke. -/
theorem undo_restores_witness :
    ((initPaint (fun a b : Nat => a != b) 0).bind
        (runPaintOps (fun a b : Nat => a != b) ([1, 2, 3].map PaintOp.stroke))).map
      (fun s => (undo^[2] s).canvas) = some 1 := by
  obtain ⟨s, hs, _, hc⟩ :=
    undo_restores (fun a b : Nat => a != b) 0 [1, 2, 3] 2 (by decide) (by decide)
  rw [hs, Option.map_some', hc]
  rfl

/-! ## Scanline flood fill (C1)

`floodFill` works on the canvas's `Uint8ClampedArray`, reading and writing
the four RGBA channels of a pixel together, always at a byte position
`(y * width + x) * 4`; the buffer is therefore modelled pixel-wise as a
function from the flat pixel index `y * width + x` to an RGBA value.  The
pattern canvas (`patternData`) is another such buffer. -/

structure RGBA where
  r : Nat
  g : Nat
  b : Nat
  a : Nat
deriving DecidableEq, Repr

def Buffer : Type := Nat → RGBA

/-- A stack entry of the scanline flood fill. -/
structure ScanLine where
  y : Nat
  leftX : Nat
  rightX : Nat
  direction : Int
deriving Repr

/-- `matchesStart`: the pixel at `(x, y)` currently equals the start
color. -/
def matchesStart (pix : Buffer) (startC : RGBA) (W y x : Nat) : Bool :=
  decide (pix (y * W + x) = startC)

/-- The left extension loop `while (x1 > 0 && matchesStart(y, x1-1)) x1--`. -/
def extendLeft (m : Nat → Bool) : Nat → Nat
  | 0 => 0
  | x + 1 => if m x then extendLeft m x else x + 1

/-- The right extension loop
`while (x2 < width-1 && matchesStart(y, x2+1)) x2++`, with the distance to
`wmax` (`width - 1`) as the structurally decreasing argument: `gap = 0`
exactly when `x ≥ wmax` and the loop condition fails. -/
def extendRightAux (m : Nat → Bool) : Nat → Nat → Nat
  | 0, x => x
  | gap + 1, x => if m (x + 1) then extendRightAux m gap (x + 1) else x

def extendRight (m : Nat → Bool) (wmax : Nat) (x : Nat) : Nat :=
  extendRightAux m (wmax - x) x

/-- `for (x = x1; x <= x2; x++) setPixel((y*W+x)*4)`: the flat positions
`y*W + x1 .. y*W + x2` take the pattern's values. -/
def fillRow (pattern : Buffer) (W y x1 x2 : Nat) (pix : Buffer) : Buffer :=
  fun p => if y * W + x1 ≤ p ∧ p ≤ y * W + x2 then pattern p else pix p

/-- The scan of row `newY` for new scanlines: over `x = x1..x2` (the list
argument), maximal runs of `m` are collected in discovery order.  The code
pushes a scanline `{leftX: x, rightX: x}` when a run opens, sets its
`rightX` to `x-1` when the run closes, and to `x2` at the end of the loop
if still open; `acc` carries the open run's `leftX`. -/
def findRuns (m : Nat → Bool) (x2 : Nat) : List Nat → Option Nat → List (Nat × Nat)
  | [], none => []
  | [], some l => [(l, x2)]
  | x :: rest, none =>
      if m x then findRuns m x2 rest (some x) else findRuns m x2 rest none
  | x :: rest, some l =>
      if m x then findRuns m x2 rest (some l)
      else (l, x - 1) :: findRuns m x2 rest none

/-- The mutable state of the flood-fill loop: the pixel buffer, the
`filledPixels` counter and the scanline stack (head = top). -/
structure FillState where
  pixels : Buffer
  filled : Nat
  stack : List ScanLine

/-- The `while (scanlines.length > 0 && filledPixels < maxPixels)` loop of
`floodFill`, with explicit fuel (the loop terminates: every non-skipped
iteration fills at least one pixel and at most `maxPixels` such
iterations run, each pushing at most `width` scanlines; the caller
supplies fuel exceeding that bound). -/
def fillLoop (W H : Nat) (startC : RGBA) (pattern : Buffer) (maxPixels : Nat) :
    Nat → FillState → FillState
  | 0, s => s
  | fuel + 1, s =>
    match s.stack with
    | [] => s
    | sl :: rest =>
      if s.filled < maxPixels then
        let newY : Int := (sl.y : Int) + sl.direction
        if newY < 0 ∨ (H : Int) ≤ newY then
          fillLoop W H startC pattern maxPixels fuel
            { pixels := s.pixels, filled := s.filled, stack := rest }
        else
          let m := fun x => matchesStart s.pixels startC W sl.y x
          let x1 := extendLeft m sl.leftX
          let x2 := extendRight m (W - 1) sl.rightX
          let pix2 := fillRow pattern W sl.y x1 x2 s.pixels
          let m2 := fun x => matchesStart pix2 startC W newY.toNat x
          let runs := findRuns m2 x2 (List.range' x1 (x2 + 1 - x1)) none
          let newLines : List ScanLine := runs.map fun r =>
            { y := newY.toNat, leftX := r.1, rightX := r.2, direction := sl.direction }
          fillLoop W H startC pattern maxPixels fuel
            { pixels := pix2, filled := s.filled + (x2 + 1 - x1),
              stack := newLines.reverse ++ rest }
      else s

/-- `floodFill` from the paint canvas: fills from `(startX, startY)` with
the pattern, unless the start pixel already equals the pattern there; the
filled area is capped at 80% of the canvas
(`maxPixels = ⌊width·height·0.8⌋`).  Two seed scanlines (upward and
downward, the downward one on top of the stack) start the loop. -/
def floodFill (W H : Nat) (pix0 : Buffer) (pattern : Buffer) (startX startY : Nat) :
    Buffer :=
  let startPos := startY * W + startX
  let startC := pix0 startPos
  if pix0 startPos = pattern startPos then pix0
  else
    let maxPixels := W * H * 8 / 10
    let fuel := (W * H + 2) * (W + 2)
    (fillLoop W H startC pattern maxPixels fuel
      { pixels := pix0, filled := 0,
        stack := [{ y := startY, leftX := startX, rightX := startX, direction := -1 },
                  { y := startY, leftX := startX, rightX := startX, direction := 1 }] }).pixels

/-! ### The 4-connected region and the soundness invariant -/

/-- 4-adjacency of pixel coordinates `(x, y)`. -/
def adjacent (p q : Nat × Nat) : Prop :=
  (p.2 = q.2 ∧ (p.1 + 1 = q.1 ∨ q.1 + 1 = p.1)) ∨
  (p.1 = q.1 ∧ (p.2 + 1 = q.2 ∨ q.2 + 1 = p.2))

/-- One step to an adjacent in-bounds pixel whose color in `pix0` is `c`. -/
def regionStep (W H : Nat) (pix0 : Buffer) (c : RGBA) (p q : Nat × Nat) : Prop :=
  adjacent p q ∧ q.1 < W ∧ q.2 < H ∧ pix0 (q.2 * W + q.1) = c

/-- The 4-connected region of the start pixel: pixels reachable from it
through 4-adjacent in-bounds pixels whose RGBA value in `pix0` equals the
start pixel's. -/
def InRegion (W H : Nat) (pix0 : Buffer) (start : Nat × Nat) (p : Nat × Nat) : Prop :=
  Relation.ReflTransGen (regionStep W H pix0 (pix0 (start.2 * W + start.1))) start p

/-- The buffer invariant: every in-bounds pixel either still holds its
original value or holds the pattern's value and lies in the region. -/
def soundInv (W H : Nat) (pix0 pattern : Buffer) (start : Nat × Nat) (pix : Buffer) :
    Prop :=
  ∀ x y, x < W → y < H →
    pix (y * W + x) = pix0 (y * W + x) ∨
    (pix (y * W + x) = pattern (y * W + x) ∧ InRegion W H pix0 start (x, y))

/-- The stack invariant: every stacked scanline is an in-bounds, nonempty
span of region pixels traversing up or down. -/
def stackInv (W H : Nat) (pix0 : Buffer) (start : Nat × Nat) (stack : List ScanLine) :
    Prop :=
  ∀ sl ∈ stack, sl.y < H ∧ sl.leftX ≤ sl.rightX ∧ sl.rightX < W ∧
    (sl.direction = 1 ∨ sl.direction = -1) ∧
    ∀ x, sl.leftX ≤ x → x ≤ sl.rightX → InRegion W H pix0 start (x, sl.y)

theorem extendLeft_le (m : Nat → Bool) : ∀ x, extendLeft m x ≤ x
  | 0 => Nat.le_refl 0
  | x + 1 => by
      unfold extendLeft
      split
      · exact Nat.le_trans (extendLeft_le m x) (Nat.le_succ x)
      · exact Nat.le_refl _

theorem extendLeft_matches (m : Nat → Bool) :
    ∀ x j, extendLeft m x ≤ j → j < x → m j = true
  | 0, j, _, h2 => absurd h2 (Nat.not_lt_zero j)
  | x + 1, j, h1, h2 => by
      unfold extendLeft at h1
      by_cases hm : m x
      · rw [if_pos hm] at h1
        by_cases hj : j = x
        · rw [hj]; exact hm
        · exact extendLeft_matches m x j h1 (by omega)
      · rw [if_neg hm] at h1
        omega

theorem extendRightAux_ge (m : Nat → Bool) : ∀ gap x, x ≤ extendRightAux m gap x
  | 0, x => Nat.le_refl x
  | gap + 1, x => by
      unfold extendRightAux
      split
      · exact Nat.le_trans (Nat.le_succ x) (extendRightAux_ge m gap (x + 1))
      · exact Nat.le_refl x

theorem extendRightAux_le (m : Nat → Bool) : ∀ gap x, extendRightAux m gap x ≤ x + gap
  | 0, x => Nat.le_refl x
  | gap + 1, x => by
      unfold extendRightAux
      split
      · exact Nat.le_trans (extendRightAux_le m gap (x + 1)) (by omega)
      · omega

theorem extendRightAux_matches (m : Nat → Bool) :
    ∀ gap x j, x < j → j ≤ extendRightAux m gap x → m j = true
  | 0, x, j, h1, h2 => by
      unfold extendRightAux at h2
      omega
  | gap + 1, x, j, h1, h2 => by
      unfold extendRightAux at h2
      split at h2
      · rename_i hm
        by_cases hj : j = x + 1
        · rw [hj]; exact hm
        · exact extendRightAux_matches m gap (x + 1) j (by omega) h2
      · omega

theorem extendRight_ge (m : Nat → Bool) (wmax x : Nat) : x ≤ extendRight m wmax x :=
  extendRightAux_ge m (wmax - x) x

theorem extendRight_le (m : Nat → Bool) (wmax x : Nat) (h : x ≤ wmax) :
    extendRight m wmax x ≤ wmax :=
  Nat.le_trans (extendRightAux_le m (wmax - x) x) (by omega)

theorem extendRight_matches (m : Nat → Bool) (wmax x : Nat) :
    ∀ j, x < j → j ≤ extendRight m wmax x → m j = true :=
  fun j h1 h2 => extendRightAux_matches m (wmax - x) x j h1 h2

theorem findRuns_spec (m : Nat → Bool) (x2 x1 : Nat) :
    ∀ (n a : Nat) (acc : Option Nat), a + n = x2 + 1 → x1 ≤ a →
    (∀ l, acc = some l → x1 ≤ l ∧ l < a ∧ ∀ x, l ≤ x → x < a → m x = true) →
    ∀ lr ∈ findRuns m x2 (List.range' a n) acc,
      x1 ≤ lr.1 ∧ lr.1 ≤ lr.2 ∧ lr.2 ≤ x2 ∧
        ∀ x, lr.1 ≤ x → x ≤ lr.2 → m x = true := by
  intro n
  induction n with
  | zero =>
      intro a acc hsum hx1 hacc lr hlr
      cases acc with
      | none => simp [findRuns] at hlr
      | some l =>
          simp only [List.range', findRuns, List.mem_singleton] at hlr
          obtain ⟨hxl, hla, hmatch⟩ := hacc l rfl
          subst hlr
          exact ⟨hxl, by omega, by omega, fun x hx3 hx4 => hmatch x hx3 (by omega)⟩
  | succ n ih =>
      intro a acc hsum hx1 hacc lr hlr
      rw [List.range'_succ] at hlr
      cases acc with
      | none =>
          by_cases hm : m a
          · rw [findRuns, if_pos hm] at hlr
            refine ih (a + 1) (some a) (by omega) (by omega) ?_ lr hlr
            intro l hl
            cases hl
            exact ⟨hx1, by omega, fun x hx3 hx4 => by
              have : x = a := by omega
              rw [this]; exact hm⟩
          · rw [findRuns, if_neg hm] at hlr
            refine ih (a + 1) none (by omega) (by omega) ?_ lr hlr
            intro l hl
            cases hl
      | some l =>
          by_cases hm : m a
          · rw [findRuns, if_pos hm] at hlr
            obtain ⟨hxl, hla, hmatch⟩ := hacc l rfl
            refine ih (a + 1) (some l) (by omega) (by omega) ?_ lr hlr
            intro l2 hl2
            cases hl2
            refine ⟨hxl, by omega, fun x hx3 hx4 => ?_⟩
            by_cases hxa : x = a
            · rw [hxa]; exact hm
            · exact hmatch x hx3 (by omega)
          · rw [findRuns, if_neg hm] at hlr
            obtain ⟨hxl, hla, hmatch⟩ := hacc l rfl
            rcases List.mem_cons.mp hlr with hlr | hlr
            · subst hlr
              exact ⟨hxl, by omega, by omega,
                fun x hx3 hx4 => hmatch x hx3 (by omega)⟩
            · refine ih (a + 1) none (by omega) (by omega) ?_ lr hlr
              intro l2 hl2
              cases hl2

theorem InRegion.step {W H : Nat} {pix0 : Buffer} {start p q : Nat × Nat}
    (hp : InRegion W H pix0 start p) (hadj : adjacent p q) (hq1 : q.1 < W)
    (hq2 : q.2 < H) (hcolor : pix0 (q.2 * W + q.1) = pix0 (start.2 * W + start.1)) :
    InRegion W H pix0 start q :=
  Relation.ReflTransGen.tail hp ⟨hadj, hq1, hq2, hcolor⟩

/-- A pixel that currently matches the start color and is adjacent to a
region pixel is itself in the region (it is either untouched — then its
original color is the start color — or already pattern-filled, in which
case the invariant already places it in the region). -/
theorem region_of_matches {W H : Nat} {pix0 pattern pix : Buffer} {start : Nat × Nat}
    (hinv : soundInv W H pix0 pattern start pix) (x y : Nat) (hx : x < W) (hy : y < H)
    (hm : matchesStart pix (pix0 (start.2 * W + start.1)) W y x = true)
    (anchor : Nat × Nat) (hanchor : InRegion W H pix0 start anchor)
    (hadj : adjacent anchor (x, y)) :
    InRegion W H pix0 start (x, y) := by
  have hmc : pix (y * W + x) = pix0 (start.2 * W + start.1) := of_decide_eq_true hm
  rcases hinv x y hx hy with h | h
  · exact InRegion.step hanchor hadj hx hy (by rw [← h]; exact hmc)
  · exact h.2

/-- Every pixel of the extended span `[x1, x2]` on row `y` is in the
region. -/
theorem row_region {W H : Nat} {pix0 pattern pix : Buffer} {start : Nat × Nat}
    (hinv : soundInv W H pix0 pattern start pix)
    {y leftX rightX : Nat} (hy : y < H) (hlr : leftX ≤ rightX) (hrw : rightX < W) :
    ∀ x, extendLeft (fun x => matchesStart pix (pix0 (start.2 * W + start.1)) W y x)
        leftX ≤ x →
      x ≤ extendRight (fun x => matchesStart pix (pix0 (start.2 * W + start.1)) W y x)
        (W - 1) rightX →
      (∀ x, leftX ≤ x → x ≤ rightX → InRegion W H pix0 start (x, y)) →
      InRegion W H pix0 start (x, y) := by
  intro x hx1 hx2 hspan
  set m := fun x => matchesStart pix (pix0 (start.2 * W + start.1)) W y x with hmdef
  have hleft : ∀ d, d ≤ leftX - extendLeft m leftX →
      InRegion W H pix0 start (leftX - d, y) := by
    intro d
    induction d with
    | zero =>
        intro _
        simpa using hspan leftX (Nat.le_refl _) hlr
    | succ d ihd =>
        intro hd
        have hx1le := extendLeft_le m leftX
        have hmx : m (leftX - (d + 1)) = true :=
          extendLeft_matches m leftX _ (by omega) (by omega)
        refine region_of_matches hinv _ _ (by omega) hy hmx (leftX - d, y)
          (ihd (by omega)) ?_
        left
        exact ⟨rfl, Or.inr (by omega)⟩
  have hright : ∀ d, rightX + d ≤ extendRight m (W - 1) rightX →
      InRegion W H pix0 start (rightX + d, y) := by
    intro d
    induction d with
    | zero =>
        intro _
        exact hspan rightX hlr (Nat.le_refl _)
    | succ d ihd =>
        intro hd
        have hle : extendRight m (W - 1) rightX ≤ W - 1 :=
          extendRight_le m (W - 1) rightX (by omega)
        have hmx : m (rightX + (d + 1)) = true :=
          extendRight_matches m (W - 1) rightX _ (by omega) (by omega)
        refine region_of_matches hinv _ _ (by omega) hy hmx (rightX + d, y)
          (ihd (by omega)) ?_
        left
        exact ⟨rfl, Or.inl (by omega)⟩
  by_cases hL : x ≤ leftX
  · have h := hleft (leftX - x) (by omega)
    have hxx : leftX - (leftX - x) = x := by omega
    rw [hxx] at h
    exact h
  · by_cases hR : x ≤ rightX
    · exact hspan x (by omega) hR
    · have h := hright (x - rightX) (by omega)
      have hxx : rightX + (x - rightX) = x := by omega
      rw [hxx] at h
      exact h

theorem flat_interval_decode {W y x1 x2 yy x : Nat} (hx : x < W) (hx2 : x2 < W)
    (h1 : y * W + x1 ≤ yy * W + x) (h2 : yy * W + x ≤ y * W + x2) :
    yy = y ∧ x1 ≤ x ∧ x ≤ x2 := by
  have hyy : yy = y := by
    rcases Nat.lt_trichotomy yy y with h | h | h
    · exfalso
      have hmul : (yy + 1) * W ≤ y * W := Nat.mul_le_mul_right W h
      have hexp : (yy + 1) * W = yy * W + W := by ring
      omega
    · exact h
    · exfalso
      have hmul : (y + 1) * W ≤ yy * W := Nat.mul_le_mul_right W h
      have hexp : (y + 1) * W = y * W + W := by ring
      omega
  subst hyy
  omega

theorem soundInv_fillRow {W H : Nat} {pix0 pattern pix : Buffer} {start : Nat × Nat}
    (hinv : soundInv W H pix0 pattern start pix) {y x1 x2 : Nat}
    (hy : y < H) (hx2 : x2 < W)
    (hreg : ∀ x, x1 ≤ x → x ≤ x2 → InRegion W H pix0 start (x, y)) :
    soundInv W H pix0 pattern start (fillRow pattern W y x1 x2 pix) := by
  intro x yy hx hyy
  unfold fillRow
  by_cases hin : y * W + x1 ≤ yy * W + x ∧ yy * W + x ≤ y * W + x2
  · rw [if_pos hin]
    obtain ⟨hyyeq, hxl, hxr⟩ := flat_interval_decode hx hx2 hin.1 hin.2
    subst hyyeq
    exact Or.inr ⟨rfl, hreg x hxl hxr⟩
  · rw [if_neg hin]
    exact hinv x yy hx hyy

theorem fillLoop_sound (W H : Nat) (pix0 pattern : Buffer) (start : Nat × Nat)
    (maxPixels : Nat) (hW : 0 < W) :
    ∀ (fuel : Nat) (s : FillState),
    soundInv W H pix0 pattern start s.pixels →
    stackInv W H pix0 start s.stack →
    soundInv W H pix0 pattern start
      (fillLoop W H (pix0 (start.2 * W + start.1)) pattern maxPixels fuel s).pixels
  | 0, _, hs, _ => hs
  | fuel + 1, ⟨pix, filled, stack⟩, hs, hstack => by
      cases stack with
      | nil => exact hs
      | cons sl rest =>
          simp only [fillLoop]
          by_cases hfill : filled < maxPixels
          · rw [if_pos hfill]
            obtain ⟨hy, hlr, hrw, hdir, hspan⟩ := hstack sl (List.mem_cons_self sl rest)
            by_cases hb : (sl.y : Int) + sl.direction < 0 ∨ (H : Int) ≤ (sl.y : Int) + sl.direction
            · rw [if_pos hb]
              exact fillLoop_sound W H pix0 pattern start maxPixels hW fuel
                ⟨pix, filled, rest⟩ hs
                (fun sl2 h2 => hstack sl2 (List.mem_cons_of_mem sl h2))
            · rw [if_neg hb]
              set startC := pix0 (start.2 * W + start.1) with hsc
              set m := fun x => matchesStart pix startC W sl.y x with hmdef
              set x1 := extendLeft m sl.leftX with hx1def
              set x2 := extendRight m (W - 1) sl.rightX with hx2def
              set pix2 := fillRow pattern W sl.y x1 x2 pix with hpix2def
              set nY := ((sl.y : Int) + sl.direction).toNat with hnYdef
              set m2 := fun x => matchesStart pix2 startC W nY x with hm2def
              have hx1le : x1 ≤ sl.leftX := extendLeft_le m sl.leftX
              have hx2ge : sl.rightX ≤ x2 := extendRight_ge m (W - 1) sl.rightX
              have hx2W : x2 < W := by
                have := extendRight_le m (W - 1) sl.rightX (by omega)
                omega
              have hrowreg : ∀ x, x1 ≤ x → x ≤ x2 → InRegion W H pix0 start (x, sl.y) :=
                fun x hxa hxb => row_region hs hy hlr hrw x hxa hxb hspan
              have hinv2 : soundInv W H pix0 pattern start pix2 :=
                soundInv_fillRow hs hy hx2W hrowreg
              have hnYH : nY < H := by
                rcases hdir with h1 | h1 <;> omega
              have hstack2 : stackInv W H pix0 start
                  (((findRuns m2 x2 (List.range' x1 (x2 + 1 - x1)) none).map fun r =>
                    ({ y := nY, leftX := r.1, rightX := r.2,
                       direction := sl.direction } : ScanLine)).reverse ++ rest) := by
                intro sl2 hsl2
                rcases List.mem_append.mp hsl2 with hsl2 | hsl2
                · rw [List.mem_reverse] at hsl2
                  obtain ⟨r, hrmem, hreq⟩ := List.mem_map.mp hsl2
                  obtain ⟨hrx1, hrlr, hrx2, hrmatch⟩ :=
                    findRuns_spec m2 x2 x1 (x2 + 1 - x1) x1 none (by omega)
                      (Nat.le_refl x1) (fun l hl => by cases hl) r hrmem
                  subst hreq
                  dsimp only
                  refine ⟨hnYH, hrlr, by omega, hdir, ?_⟩
                  intro x hxa hxb
                  refine region_of_matches hinv2 x nY (by omega) hnYH
                    (hrmatch x hxa hxb) (x, sl.y) (hrowreg x (by omega) (by omega)) ?_
                  rcases hdir with h1 | h1
                  · exact Or.inr ⟨rfl, Or.inl (by omega)⟩
                  · exact Or.inr ⟨rfl, Or.inr (by omega)⟩
                · exact hstack sl2 (List.mem_cons_of_mem sl hsl2)
              exact fillLoop_sound W H pix0 pattern start maxPixels hW fuel
                ⟨pix2, filled + (x2 + 1 - x1),
                  ((findRuns m2 x2 (List.range' x1 (x2 + 1 - x1)) none).map fun r =>
                    ({ y := nY, leftX := r.1, rightX := r.2,
                       direction := sl.direction } : ScanLine)).reverse ++ rest⟩
                hinv2 hstack2
          · rw [if_neg hfill]
            exact hs

/-- C1 (amended): `floodFill` modifies only pixels inside the 4-connected
region of pixels whose RGBA value equals the start pixel's: every
in-bounds pixel whose value changed lies in that region and now holds the
pattern's value at its position, and every pixel outside the region is
unchanged.  (The original claim that the region is filled *exactly* fails:
the 80% area cap and the scanline seeding can leave region pixels
unfilled.) -/
theorem floodFill_sound (W H : Nat) (pix0 pattern : Buffer) (sx sy : Nat)
    (hsx : sx < W) (hsy : sy < H) (x y : Nat) (hx : x < W) (hy : y < H)
    (hdiff : floodFill W H pix0 pattern sx sy (y * W + x) ≠ pix0 (y * W + x)) :
    InRegion W H pix0 (sx, sy) (x, y) ∧
    floodFill W H pix0 pattern sx sy (y * W + x) = pattern (y * W + x) := by
  by_cases hsame : pix0 (sy * W + sx) = pattern (sy * W + sx)
  · exfalso
    apply hdiff
    show (if pix0 (sy * W + sx) = pattern (sy * W + sx) then pix0
      else _) (y * W + x) = pix0 (y * W + x)
    rw [if_pos hsame]
  · have hff : floodFill W H pix0 pattern sx sy =
        (fillLoop W H (pix0 (sy * W + sx)) pattern (W * H * 8 / 10)
          ((W * H + 2) * (W + 2))
          { pixels := pix0, filled := 0,
            stack := [{ y := sy, leftX := sx, rightX := sx, direction := -1 },
                      { y := sy, leftX := sx, rightX := sx, direction := 1 }] }).pixels := by
      simp only [floodFill]
      rw [if_neg hsame]
    have hstack0 : stackInv W H pix0 (sx, sy)
        [{ y := sy, leftX := sx, rightX := sx, direction := -1 },
         { y := sy, leftX := sx, rightX := sx, direction := 1 }] := by
      intro sl hsl
      rcases List.mem_cons.mp hsl with h | h
      · subst h
        refine ⟨hsy, Nat.le_refl _, hsx, Or.inr rfl, ?_⟩
        dsimp only
        intro x3 hxa hxb
        have hx3 : x3 = sx := by omega
        subst hx3
        exact Relation.ReflTransGen.refl
      · rw [List.mem_singleton] at h
        subst h
        refine ⟨hsy, Nat.le_refl _, hsx, Or.inl rfl, ?_⟩
        dsimp only
        intro x3 hxa hxb
        have hx3 : x3 = sx := by omega
        subst hx3
        exact Relation.ReflTransGen.refl
    have hsound := fillLoop_sound W H pix0 pattern (sx, sy) (W * H * 8 / 10)
      (by omega) ((W * H + 2) * (W + 2))
      { pixels := pix0, filled := 0,
        stack := [{ y := sy, leftX := sx, rightX := sx, direction := -1 },
                  { y := sy, leftX := sx, rightX := sx, direction := 1 }] }
      (fun a b _ _ => Or.inl rfl) hstack0
    rw [hff] at hdiff ⊢
    rcases hsound x y hx hy with h | h
    · exact absurd h hdiff
    · exact ⟨h.2, h.1⟩

/-- A white and a black RGBA value. -/
def whiteRGBA : RGBA := ⟨255, 255, 255, 255⟩

def blackRGBA : RGBA := ⟨0, 0, 0, 255⟩

/-- C1 counterexample: on a 1×1 all-white canvas with an all-black
pattern, the start pixel's color differs from the pattern's and the
4-connected region is exactly the start pixel, yet `floodFill` changes
nothing: `maxPixels = ⌊1·1·0.8⌋ = 0`, so the loop body never runs (and
both seed scanlines would step out of bounds anyway), and the start pixel
keeps its old color instead of the pattern's. -/
theorem floodFill_region_not_filled_cex :
    floodFill 1 1 (fun _ => whiteRGBA) (fun _ => blackRGBA) 0 0 0 = whiteRGBA ∧
    whiteRGBA ≠ blackRGBA ∧
    InRegion 1 1 (fun _ => whiteRGBA) (0, 0) (0, 0) :=
  ⟨rfl, by decide, Relation.ReflTransGen.refl⟩

/-- Witness for `floodFill_sound` on a 2×2 all-white canvas with a black
pattern: the start pixel does change, so it is in the region and black. -/
theorem floodFill_sound_witness :
    InRegion 2 2 (fun _ => whiteRGBA) (0, 0) (0, 0) ∧
    floodFill 2 2 (fun _ => whiteRGBA) (fun _ => blackRGBA) 0 0 (0 * 2 + 0) =
      (fun _ => blackRGBA) (0 * 2 + 0) :=
  floodFill_sound 2 2 (fun _ => whiteRGBA) (fun _ => blackRGBA) 0 0
    (by decide) (by decide) 0 0 (by decide) (by decide) (by decide)

end Paint
